import Mathlib

/-!
# Verification of the `pullover` stream library

Shallow embedding of the `pullover` library: a pull-based asynchronous
stream library (`src/pullover.ts`) together with the fair counting
semaphore it uses to bound concurrency (`src/semaphore.ts`).

Modelling conventions:

* The semaphore's `Set<Symbol>` of held locks becomes a `Finset ℕ`;
  fresh symbols are drawn from an increasing counter `nextLock`, so a
  released id can never be confused with a later permit.
* The `waitingToAcquire` array keeps its JS orientation: `unshift`
  prepends (newest waiter first) and `pop` takes from the back (the
  earliest waiter).
* Asynchronous generator combinators are denoted by the trace of one
  traversal: the list of values yielded, followed by a graceful end
  (`none`) or a failure (`some e`).
* `mapAsync` is embedded as an explicit state machine over the shared
  upstream generator, the shared semaphore and the shared `promises`
  array, parametrised by an arbitrary assignment `res` of promise
  settle points, which covers every relative completion order of the
  in-flight operations.
-/

namespace Pullover

/-! ## Semaphore (`src/semaphore.ts`)

`makeSemaphore(max)` keeps a set `locks` of currently held permits and
an array `waitingToAcquire` of pending acquirers, newest first.
-/

/-- State of one semaphore created by `makeSemaphore(max)`
(semaphore.ts lines 10-43): the capacity `max`, the held permit ids
`locks`, the pending acquirers `waiting` (newest first, as the JS
array after `unshift`), and the counter supplying fresh permit ids. -/
structure SemState where
  max : Nat
  locks : Finset Nat
  waiting : List Nat
  nextLock : Nat
deriving DecidableEq

/-- `makeSemaphore(max)` (semaphore.ts line 10): no permit held, nobody
waiting. -/
def makeSemaphore (max : Nat) : SemState := ⟨max, ∅, [], 0⟩

/-- `makeRelease` (semaphore.ts lines 14-30): create a fresh lock symbol,
add it to `locks`, and hand it out; the permit's release closure captures
this id.  The keep-alive interval has no effect on the semaphore state and
is omitted. -/
def makeRelease (s : SemState) : Nat × SemState :=
  (s.nextLock, { s with locks := insert s.nextLock s.locks, nextLock := s.nextLock + 1 })

/-- `acquire` (semaphore.ts lines 32-37): when `locks.size < max` the call
resolves immediately with a fresh permit (`some` id); otherwise the caller
is `unshift`ed onto `waitingToAcquire` and stays pending (`none`). -/
def acquire (w : Nat) (s : SemState) : SemState × Option Nat :=
  if s.locks.card < s.max then
    ((makeRelease s).2, some (makeRelease s).1)
  else
    ({ s with waiting := w :: s.waiting }, none)

/-- The release closure of permit `l` (semaphore.ts lines 18-27): when `l`
is still held it is deleted, and `waitingToAcquire.pop()` - the back of
the array, i.e. the earliest enqueued waiter - is resumed with a fresh
permit created by `makeRelease`.  When `l` has already been released the
call does nothing.  The second component reports the woken waiter and its
new permit, if any. -/
def release (l : Nat) (s : SemState) : SemState × Option (Nat × Nat) :=
  if l ∈ s.locks then
    match s.waiting.getLast? with
    | some w =>
        let m := makeRelease ⟨s.max, s.locks.erase l, s.waiting.dropLast, s.nextLock⟩
        (m.2, some (w, m.1))
    | none => ({ s with locks := s.locks.erase l }, none)
  else (s, none)

/-- `available` (semaphore.ts line 41): literally `() => max - locks.size`,
a pure read of the state with no mutation; the JS number may in principle
be negative, so the embedding returns an integer. -/
def available (s : SemState) : ℤ := (s.max : ℤ) - s.locks.card

/-- One externally observable semaphore call: an `acquire` by waiter `w`
or an invocation of the release closure of permit id `l` (including
double releases and releases of ids never granted). -/
inductive SemOp where
  | acq (w : Nat)
  | rel (l : Nat)
deriving Repr, DecidableEq

/-- The state transition of one call. -/
def semStep (s : SemState) : SemOp → SemState
  | .acq w => (acquire w s).1
  | .rel l => (release l s).1

/-- The semaphore state after an arbitrary interleaving of acquire and
release calls on a semaphore created by `makeSemaphore max`. -/
def runOps (max : Nat) (ops : List SemOp) : SemState :=
  ops.foldl semStep (makeSemaphore max)

lemma release_of_not_mem (l : Nat) (u : SemState) (hu : l ∉ u.locks) :
    release l u = (u, none) := by
  simp [release, hu]

lemma semStep_acq_grant (s : SemState) (w : Nat) (h : s.locks.card < s.max) :
    semStep s (.acq w) =
      { s with locks := insert s.nextLock s.locks, nextLock := s.nextLock + 1 } := by
  simp [semStep, acquire, makeRelease, h]

lemma semStep_acq_pend (s : SemState) (w : Nat) (h : ¬ s.locks.card < s.max) :
    semStep s (.acq w) = { s with waiting := w :: s.waiting } := by
  simp [semStep, acquire, h]

lemma release_wake (s : SemState) (l w : Nat) (hmem : l ∈ s.locks)
    (hlast : s.waiting.getLast? = some w) :
    release l s =
      (⟨s.max, insert s.nextLock (s.locks.erase l), s.waiting.dropLast, s.nextLock + 1⟩,
        some (w, s.nextLock)) := by
  simp [release, hmem, hlast, makeRelease]

lemma release_no_waiter (s : SemState) (l : Nat) (hmem : l ∈ s.locks)
    (hlast : s.waiting.getLast? = none) :
    release l s = ({ s with locks := s.locks.erase l }, none) := by
  simp [release, hmem, hlast]

/-- Reachability invariant: the capacity field is the construction-time
`max`, at most `max` permits are held, and every held permit id is below
the fresh-id counter. -/
def semInv (max : Nat) (s : SemState) : Prop :=
  s.max = max ∧ s.locks.card ≤ max ∧ ∀ l ∈ s.locks, l < s.nextLock

lemma semInv_step (max : Nat) (s : SemState) (op : SemOp) (h : semInv max s) :
    semInv max (semStep s op) := by
  obtain ⟨hmax, hcard, hfresh⟩ := h
  cases op with
  | acq w =>
    by_cases hlt : s.locks.card < s.max
    · rw [semStep_acq_grant s w hlt]
      refine ⟨hmax, ?_, ?_⟩
      · have h1 : (insert s.nextLock s.locks).card ≤ s.locks.card + 1 :=
          Finset.card_insert_le _ _
        simp only
        omega
      · intro l hl
        simp only at hl
        rcases Finset.mem_insert.mp hl with rfl | hl
        · simp only
          omega
        · have := hfresh l hl
          simp only
          omega
    · rw [semStep_acq_pend s w hlt]
      exact ⟨hmax, hcard, hfresh⟩
  | rel l =>
    by_cases hmem : l ∈ s.locks
    · have hpos : 0 < s.locks.card := Finset.card_pos.mpr ⟨l, hmem⟩
      have herase : (s.locks.erase l).card = s.locks.card - 1 :=
        Finset.card_erase_of_mem hmem
      cases hlast : s.waiting.getLast? with
      | some w =>
        have hstep : semStep s (.rel l) =
            ⟨s.max, insert s.nextLock (s.locks.erase l), s.waiting.dropLast,
              s.nextLock + 1⟩ := by
          simp [semStep, release_wake s l w hmem hlast]
        rw [hstep]
        refine ⟨hmax, ?_, ?_⟩
        · have h1 : (insert s.nextLock (s.locks.erase l)).card ≤
              (s.locks.erase l).card + 1 := Finset.card_insert_le _ _
          simp only
          omega
        · intro x hx
          simp only at hx ⊢
          rcases Finset.mem_insert.mp hx with rfl | hx
          · omega
          · have := hfresh x (Finset.mem_of_mem_erase hx)
            omega
      | none =>
        have hstep : semStep s (.rel l) = { s with locks := s.locks.erase l } := by
          simp [semStep, release_no_waiter s l hmem hlast]
        rw [hstep]
        refine ⟨hmax, ?_, ?_⟩
        · simp only
          omega
        · intro x hx
          simp only at hx ⊢
          exact hfresh x (Finset.mem_of_mem_erase hx)
    · have hstep : semStep s (.rel l) = s := by
        simp [semStep, release_of_not_mem l s hmem]
      rw [hstep]
      exact ⟨hmax, hcard, hfresh⟩

lemma foldl_semInv (max : Nat) (ops : List SemOp) :
    ∀ s : SemState, semInv max s → semInv max (ops.foldl semStep s) := by
  induction ops with
  | nil => intro s h; exact h
  | cons op rest ih => intro s h; exact ih _ (semInv_step max s op h)

lemma runOps_inv (max : Nat) (ops : List SemOp) : semInv max (runOps max ops) :=
  foldl_semInv max ops _ ⟨rfl, by simp [makeSemaphore], by simp [makeSemaphore]⟩

/-- Claim C6: for every semaphore created with `makeSemaphore max` and
every interleaving of acquire and release calls, the number of held
permits never exceeds `max`, and `available` returns exactly `max` minus
the held count, hence is never negative.  (`available` is embedded as a
pure function of the state, mirroring the side-effect-free source
`() => max - locks.size`.) -/
theorem semaphore_available_invariant (max : Nat) (ops : List SemOp) :
    (runOps max ops).locks.card ≤ max ∧
    available (runOps max ops) = (max : ℤ) - (runOps max ops).locks.card ∧
    0 ≤ available (runOps max ops) := by
  obtain ⟨hmax, hcard, -⟩ := runOps_inv max ops
  refine ⟨hcard, ?_, ?_⟩
  · simp only [available, hmax]
  · simp only [available, hmax]
    omega

/-- Claim C9: releasing a permit a second (or any later) time is a safe
no-op on every reachable semaphore state: the first release removes the
permit, and a repeated release leaves the state completely unchanged and
wakes no waiter (and the operation is total, so it never raises). -/
theorem semaphore_double_release_noop (max : Nat) (ops : List SemOp) (l : Nat) :
    (l ∈ (runOps max ops).locks → l ∉ (release l (runOps max ops)).1.locks) ∧
    release l (release l (runOps max ops)).1 = ((release l (runOps max ops)).1, none) := by
  obtain ⟨-, -, hfresh⟩ := runOps_inv max ops
  have hnot : l ∉ (release l (runOps max ops)).1.locks := by
    by_cases hmem : l ∈ (runOps max ops).locks
    · have hlt : l < (runOps max ops).nextLock := hfresh l hmem
      cases hlast : (runOps max ops).waiting.getLast? with
      | some w =>
        rw [release_wake _ l w hmem hlast]
        simp only [Finset.mem_insert]
        push_neg
        exact ⟨by omega, Finset.not_mem_erase _ _⟩
      | none =>
        rw [release_no_waiter _ l hmem hlast]
        exact Finset.not_mem_erase _ _
    · rw [release_of_not_mem l _ hmem]
      exact hmem
  exact ⟨fun _ => hnot, release_of_not_mem l _ hnot⟩

/-- Witness for C9 on a concrete run: one permit is granted, its release
removes it, and a second release of the same permit changes nothing. -/
theorem semaphore_double_release_noop_witness :
    (0 ∈ (runOps 1 [SemOp.acq 0]).locks → 0 ∉ (release 0 (runOps 1 [SemOp.acq 0])).1.locks) ∧
    release 0 (release 0 (runOps 1 [SemOp.acq 0])).1 =
      ((release 0 (runOps 1 [SemOp.acq 0])).1, none) :=
  semaphore_double_release_noop 1 [SemOp.acq 0] 0

/-- Claim C3: when all `max` permits are held an `acquire` call does not
resolve but is enqueued; a release of a held permit wakes exactly the
earliest enqueued waiter (the back of the `waitingToAcquire` array) and
removes exactly that one waiter; and among two acquirers that blocked in
this order, the first release grants the first caller and the second
release grants the second caller - strict FIFO. -/
theorem semaphore_acquire_fifo
    (s t : SemState) (w1 w2 l1 l2 l wE : Nat)
    (hfull : s.max ≤ s.locks.card) (hw : s.waiting = [])
    (hl1 : l1 ∈ s.locks) (hl2 : l2 ∈ s.locks) (hne : l1 ≠ l2)
    (hlt : l ∈ t.locks) (hwt : t.waiting.getLast? = some wE) :
    (acquire w1 s).2 = none ∧
    (acquire w1 s).1.waiting = w1 :: s.waiting ∧
    ((release l t).2.map Prod.fst = some wE ∧
      (release l t).1.waiting = t.waiting.dropLast) ∧
    ((release l1 (acquire w2 (acquire w1 s).1).1).2.map Prod.fst = some w1 ∧
      (release l2 (release l1 (acquire w2 (acquire w1 s).1).1).1).2.map
        Prod.fst = some w2) := by
  obtain ⟨smax, slocks, swaiting, snext⟩ := s
  obtain ⟨tmax, tlocks, twaiting, tnext⟩ := t
  dsimp only at hfull hw hl1 hl2 hlt hwt ⊢
  subst hw
  have hnl : ¬ slocks.card < smax := by omega
  have ha1 : acquire w1 ⟨smax, slocks, [], snext⟩ =
      (⟨smax, slocks, [w1], snext⟩, none) := by
    simp [acquire, hnl]
  have ha2 : acquire w2 ⟨smax, slocks, [w1], snext⟩ =
      (⟨smax, slocks, [w2, w1], snext⟩, none) := by
    simp [acquire, hnl]
  have hrt : release l ⟨tmax, tlocks, twaiting, tnext⟩ =
      (⟨tmax, insert tnext (tlocks.erase l), twaiting.dropLast, tnext + 1⟩,
        some (wE, tnext)) :=
    release_wake ⟨tmax, tlocks, twaiting, tnext⟩ l wE hlt hwt
  have hr1 : release l1 ⟨smax, slocks, [w2, w1], snext⟩ =
      (⟨smax, insert snext (slocks.erase l1), [w2], snext + 1⟩,
        some (w1, snext)) :=
    release_wake ⟨smax, slocks, [w2, w1], snext⟩ l1 w1 hl1 rfl
  have hl2' : l2 ∈ insert snext (slocks.erase l1) :=
    Finset.mem_insert_of_mem (Finset.mem_erase.mpr ⟨hne.symm, hl2⟩)
  have hr2 : release l2 ⟨smax, insert snext (slocks.erase l1), [w2], snext + 1⟩ =
      (⟨smax, insert (snext + 1) ((insert snext (slocks.erase l1)).erase l2), [],
          snext + 2⟩, some (w2, snext + 1)) :=
    release_wake ⟨smax, insert snext (slocks.erase l1), [w2], snext + 1⟩ l2 w2 hl2' rfl
  refine ⟨?_, ?_, ⟨?_, ?_⟩, ?_, ?_⟩
  · rw [ha1]
  · rw [ha1]
  · rw [hrt]
    rfl
  · rw [hrt]
  · simp [ha1, ha2, hr1]
  · simp [ha1, ha2, hr1, hr2]

/-- Witness for C3 on concrete states: a semaphore with both of its two
permits held enqueues further acquirers and serves them in FIFO order;
a semaphore with waiters `[9, 7]` (newest first) wakes `7` first. -/
theorem semaphore_acquire_fifo_witness :
    (acquire 4 (⟨2, {0, 1}, [], 2⟩ : SemState)).2 = none ∧
    (acquire 4 (⟨2, {0, 1}, [], 2⟩ : SemState)).1.waiting = 4 :: [] ∧
    ((release 0 (⟨1, {0}, [9, 7], 1⟩ : SemState)).2.map Prod.fst = some 7 ∧
      (release 0 (⟨1, {0}, [9, 7], 1⟩ : SemState)).1.waiting =
        ([9, 7] : List Nat).dropLast) ∧
    ((release 0 (acquire 5 (acquire 4 (⟨2, {0, 1}, [], 2⟩ : SemState)).1).1).2.map
        Prod.fst = some 4 ∧
      (release 1 (release 0 (acquire 5 (acquire 4
        (⟨2, {0, 1}, [], 2⟩ : SemState)).1).1).1).2.map Prod.fst = some 5) :=
  semaphore_acquire_fifo ⟨2, {0, 1}, [], 2⟩ ⟨1, {0}, [9, 7], 1⟩ 4 5 0 1 0 7
    (by decide) rfl (by decide) (by decide) (by decide) (by decide) rfl

/-! ## Trace model of the generator combinators (`src/pullover.ts`)

Each combinator built with `async function* ()` creates fresh local
state per invocation of the factory; one traversal is therefore fully
described by its trace: the values yielded, then a graceful end
(`err = none`) or a raised failure (`err = some e`).
-/

/-- One traversal of a generator-built stream: the values it yields in
order, then how it finishes. -/
structure STrace (E A : Type) where
  vals : List A
  err : Option E
deriving Repr, DecidableEq

/-- `of` (pullover.ts lines 6-8): yields the value once, then ends. -/
def ofS {E A : Type} (a : A) : STrace E A := ⟨[a], none⟩

/-- `throwError` (pullover.ts lines 28-30): fails with `e` on the first
pull, yielding no value. -/
def throwErrorS {E A : Type} (e : E) : STrace E A := ⟨[], some e⟩

/-- `concat` (pullover.ts lines 35-38): `yield* fa(); yield* ga()` - the
whole first traversal runs; the second generator is only entered when the
first ended gracefully, so a failure of the first propagates with the
second never pulled. -/
def concatS {E A : Type} (ga fa : STrace E A) : STrace E A :=
  match fa.err with
  | none => ⟨fa.vals ++ ga.vals, ga.err⟩
  | some e => ⟨fa.vals, some e⟩

/-- `recover` (pullover.ts lines 65-71): `try { yield* fa() } catch (e)
{ yield* f(e)() }` - the values yielded inside the `try` stand; on an
upstream failure the handler's traversal is spliced in, and it is itself
outside the `try`, so its own failure is not re-caught. -/
def recoverS {E A : Type} (h : E → STrace E A) (fa : STrace E A) : STrace E A :=
  match fa.err with
  | none => fa
  | some e => ⟨fa.vals ++ (h e).vals, (h e).err⟩

/-- `runToArray` (pullover.ts lines 185-191): drives the traversal to the
end collecting the yielded values, or propagates its failure. -/
def runToArrayS {E A : Type} (fa : STrace E A) : Except E (List A) :=
  match fa.err with
  | none => .ok fa.vals
  | some e => .error e

/-- Claim C10: concatenating two finite streams emits the first stream's
values then the second stream's values; and when the first stream's
traversal fails, the failure propagates after the first stream's values
and the result does not depend on the second stream at all (it is never
pulled): replacing it by any other stream gives the same trace. -/
theorem concat_appends_and_skips_second_on_failure {E A : Type}
    (s1 s2 s2' : STrace E A) (e : E) :
    (s1.err = none → s2.err = none →
      runToArrayS (concatS s2 s1) = .ok (s1.vals ++ s2.vals)) ∧
    (s1.err = some e →
      concatS s2 s1 = ⟨s1.vals, some e⟩ ∧ concatS s2 s1 = concatS s2' s1) := by
  constructor
  · intro h1 h2
    simp [concatS, runToArrayS, h1, h2]
  · intro h1
    simp [concatS, h1]

/-- Witness for C10: `[1] ++ [2]` concatenates in order, and with a
failing first stream the second stream (whether `[8]` or a failing one)
is irrelevant. -/
theorem concat_appends_witness :
    runToArrayS (concatS (⟨[2], none⟩ : STrace String Nat) ⟨[1], none⟩) = .ok [1, 2] ∧
    concatS (⟨[8], none⟩ : STrace String Nat) ⟨[7], some "E"⟩ = ⟨[7], some "E"⟩ ∧
    concatS (⟨[8], none⟩ : STrace String Nat) ⟨[7], some "E"⟩ =
      concatS ⟨[9], some "X"⟩ ⟨[7], some "E"⟩ :=
  ⟨(concat_appends_and_skips_second_on_failure ⟨[1], none⟩ ⟨[2], none⟩ ⟨[0], none⟩
      "E").1 rfl rfl,
    ((concat_appends_and_skips_second_on_failure ⟨[7], some "E"⟩ ⟨[8], none⟩
      ⟨[9], some "X"⟩ "E").2 rfl).1,
    ((concat_appends_and_skips_second_on_failure ⟨[7], some "E"⟩ ⟨[8], none⟩
      ⟨[9], some "X"⟩ "E").2 rfl).2⟩

/-- Claim C8: `recover(handler)` leaves a non-failing stream unchanged;
when the upstream traversal fails with `e` it switches to the traversal
`handler e`, emitting its values after the values already yielded and
taking over its end status - in particular a failure of the recovery
traversal itself is not re-caught and propagates unchanged. -/
theorem recover_switches_on_failure {E A : Type} (h : E → STrace E A)
    (s : STrace E A) (e : E) :
    (s.err = none → recoverS h s = s) ∧
    (s.err = some e →
      recoverS h s = ⟨s.vals ++ (h e).vals, (h e).err⟩) ∧
    runToArrayS (recoverS h (throwErrorS e)) = runToArrayS (h e) := by
  refine ⟨fun h1 => by simp [recoverS, h1], fun h1 => by simp [recoverS, h1], ?_⟩
  simp only [recoverS, throwErrorS]
  cases hh : (h e).err <;> simp [runToArrayS, hh]

/-- Witness for C8: recovering the immediately failing stream with
`_ => of(666)` yields `[666]`; a non-failing stream is untouched. -/
theorem recover_switches_witness :
    recoverS (fun _ => ofS 666) (throwErrorS "E") = (⟨[666], none⟩ : STrace String Nat) ∧
    recoverS (fun _ => ofS 666) (⟨[5], none⟩ : STrace String Nat) = ⟨[5], none⟩ :=
  ⟨(recover_switches_on_failure (fun _ => ofS 666) (throwErrorS "E") "E").2.1 rfl,
    (recover_switches_on_failure (fun _ => ofS 666) ⟨[5], none⟩ "E").1 rfl⟩

/-! ## `take` (`src/pullover.ts` lines 73-81)

```
let i = n;
for await (const item of fa()) {
    if (i-- <= 0) { break; }
    yield item;
}
```

The `for await` loop pulls the next upstream value *before* the counter
test runs, so the cutoff is detected only after one value past it has
already been pulled (and is then discarded by `break`).  The embedding
returns the emitted values together with the number of upstream values
pulled. -/

/-- `take(n)` driven over a finite upstream: emitted values and the
count of upstream values pulled.  The counter is an integer, as in the
source, and is decremented after each test. -/
def takeRun {A : Type} (i : ℤ) : List A → List A × Nat
  | [] => ([], 0)
  | a :: rest =>
    if i ≤ 0 then ([], 1)
    else
      let r := takeRun (i - 1) rest
      (a :: r.1, r.2 + 1)

/-- `take(n)` driven over an infinite upstream `g` (value at pull
position `pos` is `g pos`).  The definition is total, which is the
termination half of claim C4. -/
def takeRunInf {A : Type} (g : Nat → A) (i : ℤ) (pos : Nat) : List A × Nat :=
  if h : i ≤ 0 then ([], 1)
  else
    let r := takeRunInf g (i - 1) (pos + 1)
    (g pos :: r.1, r.2 + 1)
termination_by i.toNat
decreasing_by omega

/-- Claim C4 counterexample: `take(2)` over `[10, 20, 30, 40]` emits the
first two values but pulls 3 upstream values - the `(n+1)`-th value is
pulled (then discarded), contradicting the claim that it is never
pulled. -/
theorem take_pulls_one_past_cutoff :
    takeRun 2 [10, 20, 30, 40] = ([10, 20], 3) ∧
    ¬ (takeRun 2 ([10, 20, 30, 40] : List Nat)).2 ≤ 2 := by
  constructor <;> decide

lemma takeRunInf_spec {A : Type} (g : Nat → A) (n : Nat) :
    ∀ pos : Nat, takeRunInf g (n : ℤ) pos = ((List.range' pos n).map g, n + 1) := by
  induction n with
  | zero => intro pos; rw [takeRunInf]; simp
  | succ m ih =>
    intro pos
    rw [takeRunInf]
    have hle : ¬ ((m + 1 : Nat) : ℤ) ≤ 0 := by omega
    rw [dif_neg hle]
    have hcast : ((m + 1 : Nat) : ℤ) - 1 = (m : ℤ) := by omega
    rw [hcast, ih (pos + 1)]
    simp [List.range'_succ]

/-- Claim C4 (amended): for every `n ≥ 0`, `take(n)` emits exactly the
first `min n length` upstream values and, over an infinite stream,
terminates - but it pulls `min (n+1) length` values from a finite
upstream and exactly `n + 1` values from an infinite one: one value past
the cutoff is pulled and discarded whenever the upstream has more than
`n` values. -/
theorem take_emits_min_and_pulls_one_extra {A : Type} (n : Nat) (xs : List A)
    (g : Nat → A) :
    takeRun (n : ℤ) xs = (xs.take n, min (n + 1) xs.length) ∧
    takeRunInf g (n : ℤ) 0 = ((List.range n).map g, n + 1) := by
  constructor
  · induction xs generalizing n with
    | nil => simp [takeRun]
    | cons a rest ih =>
      cases n with
      | zero => simp [takeRun]
      | succ m =>
        have hle : ¬ ((m + 1 : Nat) : ℤ) ≤ 0 := by omega
        have hcast : ((m + 1 : Nat) : ℤ) - 1 = (m : ℤ) := by omega
        simp only [takeRun, if_neg hle, hcast, ih m, List.take_succ_cons,
          List.length_cons, Prod.mk.injEq, true_and]
        omega
  · rw [takeRunInf_spec g n 0, List.range_eq_range']

/-! ## Ordered bounded-concurrency map (`mapAsync`, pullover.ts lines 94-127)

```
const gen = fa();
const semaphore = makeSemaphore(concurrency);
const promises: Array<Promise<B>> = [];
return fromIterable({ [Symbol.asyncIterator]: () => ({ next: async () => {
    while (semaphore.available()) {
        const release = await semaphore.acquire();
        try {
            const result = await gen.next();
            if (result.done) { release(); break; }
            const promise = f(result.value);
            promises.unshift(promise);
            promise.then(() => release());
        } catch (e) { release(); throw e; }
    }
    const last = promises.pop();
    return last === undefined ? done : value (await last);
} }) })
```

`gen`, `semaphore` and `promises` are created when the combinator is
applied, *outside* the returned factory, so every traversal of the
resulting stream shares them.  The embedding is a state machine over
`(input, queue, t)`:

* `input` is what remains of the shared upstream generator, each value
  paired with its pull index;
* `queue` is the `promises` array in JS orientation - `unshift` prepends,
  so the newest entry is at the head and `pop` takes the last element,
  the oldest;
* `t` counts await points, and an arbitrary function `res` assigns to
  every pull index the await point at which its promise settles;
  quantifying over `res` covers every relative completion order of the
  in-flight operations.

A permit is held until its release fires; the release is attached with
`promise.then(() => release())` - a fulfilment handler only - so it
fires once the promise has settled *and* the promise fulfilled. -/

/-- The shared upstream values paired with their pull indices (indices
act as the identities of the `f`-promises). -/
def enumIdx {A : Type} : List A → Nat → List (Nat × A)
  | [], _ => []
  | a :: rest, i => (i, a) :: enumIdx rest (i + 1)

lemma enumIdx_map_val {A B : Type} (f : A → B) :
    ∀ (xs : List A) (i : Nat), (enumIdx xs i).map (fun p => f p.2) = xs.map f := by
  intro xs
  induction xs with
  | nil => intro i; rfl
  | cons a rest ih => intro i; simp [enumIdx, ih]

lemma enumIdx_length {A : Type} :
    ∀ (xs : List A) (i : Nat), (enumIdx xs i).length = xs.length := by
  intro xs
  induction xs with
  | nil => intro i; rfl
  | cons a rest ih => intro i; simp [enumIdx, ih]

/-- A mapping function that succeeds on every element, as an
`Except`-valued function (the promise of `f a` always fulfils). -/
def okLift (E : Type) {A B : Type} (f : A → B) : A → Except E B :=
  fun a => .ok (f a)

/-- The completion callback attached at submission time is
`promise.then(() => release())` (pullover.ts line 113): a fulfilment
handler only, so the release of an entry's permit fires exactly when its
promise fulfils - a rejected promise never triggers it. -/
def releaseFires {E B : Type} (r : Except E B) : Bool := r.isOk

/-- Whether the permit of in-flight entry `p` is still held at await
point `t`: the release has not fired yet, i.e. the promise has not
settled (`res p.1 ≤ t` fails) or it settled rejected (`releaseFires`
fails). -/
def unreleasedE {E A B : Type} (res : Nat → Nat) (f : A → Except E B)
    (t : Nat) (p : Nat × A) : Bool :=
  ! (decide (res p.1 ≤ t) && releaseFires (f p.2))

/-- `locks.size` of the mapAsync-internal semaphore at await point `t`:
the permits of the in-flight entries whose release has not fired.  (An
entry that has been popped was awaited, so a fulfilled popped entry has
already released; a rejected one never releases, but the traversal dies
at its pop, so during the run the held permits are exactly the
unreleased queue entries.) -/
def locksE {E A B : Type} (res : Nat → Nat) (f : A → Except E B)
    (queue : List (Nat × A)) (t : Nat) : Nat :=
  (queue.filter (unreleasedE res f t)).length

/-- The `while (semaphore.available())` refill loop of `next` (pullover.ts
lines 102-118).  The JS `while` tests the number `available()` for
truthiness, i.e. loops while `concurrency - locks.size ≠ 0`; `acquire`
inside the loop resolves immediately exactly when `locks.size < max`,
and with nobody to release a permit a blocked acquire pends forever
(`none` - only reachable for negative concurrency).  Each iteration
pulls one upstream value and `unshift`s its `f`-promise onto the queue,
or sees the upstream end, releases the transient permit and breaks.
One await point passes per iteration. -/
def refillE {E A B : Type} (k : ℤ) (res : Nat → Nat) (f : A → Except E B) :
    List (Nat × A) → List (Nat × A) → Nat →
      Option (List (Nat × A) × List (Nat × A) × Nat)
  | [], queue, t =>
    if k - (locksE res f queue t : ℤ) = 0 then some ([], queue, t)
    else if (locksE res f queue t : ℤ) < k then some ([], queue, t + 1)
    else none
  | p :: rest, queue, t =>
    if k - (locksE res f queue t : ℤ) = 0 then some (p :: rest, queue, t)
    else if (locksE res f queue t : ℤ) < k then refillE k res f rest (p :: queue) (t + 1)
    else none

/-- The observable outcome of driving one traversal of a `mapAsync`
stream to its end (or to its failure): the values it emitted, how it
finished, and the shared state - remaining upstream and remaining
`promises` queue - it leaves behind for any later traversal of the same
stream value. -/
structure MapTrav (E A B : Type) where
  outputs : List B
  failure : Option E
  restInput : List (Nat × A)
  restQueue : List (Nat × A)
deriving Repr, DecidableEq

/-- The drive loop of `runToArray` over a `mapAsync` stream: repeatedly
call `next` (refill, then `promises.pop()` - the back of the array, the
oldest entry) until `pop` finds the queue empty (`done`) or the awaited
front promise rejects (the error propagates out of `next`).  `fuel`
bounds the number of `next` calls; `none` means the fuel ran out or a
`next` call never resolved. -/
def mapERun {E A B : Type} (k : ℤ) (res : Nat → Nat) (f : A → Except E B) :
    Nat → List (Nat × A) → List (Nat × A) → Nat → Option (MapTrav E A B)
  | 0, _, _, _ => none
  | fuel + 1, input, queue, t =>
    match refillE k res f input queue t with
    | none => none
    | some (input', queue', t') =>
      match queue'.getLast? with
      | none => some ⟨[], none, input', queue'⟩
      | some p =>
        match f p.2 with
        | .error e => some ⟨[], some e, input', queue'.dropLast⟩
        | .ok b =>
          (mapERun k res f fuel input' queue'.dropLast (t' + 1)).map
            (fun r => ⟨b :: r.outputs, r.failure, r.restInput, r.restQueue⟩)

/-- `runToArray(mapAsync(f, k)(fromIterable xs))` for a fresh `mapAsync`
stream: the shared generator still holds all of `xs`, the shared queue
is empty, and `xs.length + 1` calls of `next` always suffice. -/
def mapAsyncRun {E A B : Type} (k : ℤ) (res : Nat → Nat) (f : A → Except E B)
    (xs : List A) : Option (MapTrav E A B) :=
  mapERun k res f (xs.length + 1) (enumIdx xs 0) [] 0

lemma unreleasedE_succ {E A B : Type} (res : Nat → Nat) (f : A → Except E B)
    (t : Nat) (p : Nat × A) (h : unreleasedE res f (t + 1) p = true) :
    unreleasedE res f t p = true := by
  simp only [unreleasedE, Bool.not_eq_true', Bool.and_eq_false_iff,
    decide_eq_false_iff_not, not_le] at h ⊢
  rcases h with h | h
  · exact Or.inl (by omega)
  · exact Or.inr h

lemma locksE_succ_le {E A B : Type} (res : Nat → Nat) (f : A → Except E B)
    (queue : List (Nat × A)) (t : Nat) :
    locksE res f queue (t + 1) ≤ locksE res f queue t :=
  (List.monotone_filter_right queue
    (fun p hp => unreleasedE_succ res f t p hp)).length_le

lemma locksE_cons_le {E A B : Type} (res : Nat → Nat) (f : A → Except E B)
    (p : Nat × A) (queue : List (Nat × A)) (t : Nat) :
    locksE res f (p :: queue) t ≤ locksE res f queue t + 1 := by
  simp only [locksE, List.filter_cons]
  split <;> simp

lemma locksE_dropLast_le {E A B : Type} (res : Nat → Nat) (f : A → Except E B)
    (queue : List (Nat × A)) (t : Nat) :
    locksE res f queue.dropLast t ≤ locksE res f queue t :=
  ((queue.dropLast_sublist).filter _).length_le

lemma locksE_nil {E A B : Type} (res : Nat → Nat) (f : A → Except E B) (t : Nat) :
    locksE res f [] t = 0 := rfl

/-- The refill loop under the in-range concurrency invariant: it always
terminates (the blocked-acquire branch is unreachable for `k ≥ 1`),
preserves the pending sequence `queue.reverse ++ input` (oldest first),
keeps the held-permit count at most `k`, and leaves the queue empty only
when it started empty with the upstream already exhausted. -/
lemma refillE_spec {E A B : Type} (k : ℤ) (res : Nat → Nat) (f : A → Except E B)
    (hk : 1 ≤ k) :
    ∀ (input queue : List (Nat × A)) (t : Nat),
      (locksE res f queue t : ℤ) ≤ k →
      ∃ input' queue' t',
        refillE k res f input queue t = some (input', queue', t') ∧
        queue'.reverse ++ input' = queue.reverse ++ input ∧
        (locksE res f queue' t' : ℤ) ≤ k ∧
        (queue' = [] → queue = [] ∧ input = []) := by
  intro input
  induction input with
  | nil =>
    intro queue t hlock
    by_cases h0 : k - (locksE res f queue t : ℤ) = 0
    · exact ⟨[], queue, t, by rw [refillE, if_pos h0], rfl, hlock,
        fun hq => ⟨hq, rfl⟩⟩
    · have hlt : (locksE res f queue t : ℤ) < k := by omega
      refine ⟨[], queue, t + 1, by rw [refillE, if_neg h0, if_pos hlt], rfl, ?_,
        fun hq => ⟨hq, rfl⟩⟩
      have := locksE_succ_le res f queue t
      omega
  | cons p rest ih =>
    intro queue t hlock
    by_cases h0 : k - (locksE res f queue t : ℤ) = 0
    · refine ⟨p :: rest, queue, t, by rw [refillE, if_pos h0], rfl, hlock, ?_⟩
      intro hq
      rw [hq] at h0
      rw [locksE_nil] at h0
      omega
    · have hlt : (locksE res f queue t : ℤ) < k := by omega
      have hpre : (locksE res f (p :: queue) (t + 1) : ℤ) ≤ k := by
        have h1 := locksE_cons_le res f p queue (t + 1)
        have h2 := locksE_succ_le res f queue t
        omega
      obtain ⟨input', queue', t', heq, hpend, hlock', hemp⟩ := ih (p :: queue) (t + 1) hpre
      refine ⟨input', queue', t', ?_, ?_, hlock', ?_⟩
      · rw [refillE, if_neg h0, if_pos hlt]
        exact heq
      · rw [hpend]
        simp
      · intro hq
        rcases hemp hq with ⟨hq', -⟩
        exact absurd hq' (by simp)

/-- Driving a `mapAsync` traversal with an everywhere-succeeding `f` and
concurrency `k ≥ 1`: the emitted values are exactly `f` mapped over the
pending sequence in submission order, the traversal ends gracefully, and
it leaves the shared upstream and the shared queue empty - for every
assignment `res` of promise completion points. -/
lemma mapERun_ok {E A B : Type} (k : ℤ) (res : Nat → Nat) (f : A → B) (hk : 1 ≤ k) :
    ∀ (fuel : Nat) (input queue : List (Nat × A)) (t : Nat),
      input.length + queue.length < fuel →
      (locksE res (okLift E f) queue t : ℤ) ≤ k →
      mapERun k res (okLift E f) fuel input queue t =
        some ⟨(queue.reverse ++ input).map (fun p => f p.2), none, [], []⟩ := by
  intro fuel
  induction fuel with
  | zero =>
    intro input queue t hlen hlock
    omega
  | succ m ih =>
    intro input queue t hlen hlock
    obtain ⟨input', queue', t', heq, hpend, hlock', hemp⟩ :=
      refillE_spec k res (okLift E f) hk input queue t hlock
    have hlenpend : queue'.length + input'.length = queue.length + input.length := by
      have := congrArg List.length hpend
      simpa using this
    simp only [mapERun, heq]
    cases hqr : queue'.reverse with
    | nil =>
      have hq' : queue' = [] := by
        have := congrArg List.reverse hqr
        simpa using this
      obtain ⟨hq0, hi0⟩ := hemp hq'
      have hi' : input' = [] := by
        rw [hq', hq0, hi0] at hpend
        simpa using hpend
      rw [hq', hi', hq0, hi0]
      simp
    | cons p0 rest0 =>
      have hq' : queue' = rest0.reverse ++ [p0] := by
        have := congrArg List.reverse hqr
        simpa using this
      have hlast : queue'.getLast? = some p0 := by
        rw [hq']
        exact List.getLast?_concat _
      have hdrop : queue'.dropLast = rest0.reverse := by
        rw [hq']
        exact List.dropLast_concat
      have hqlen : 1 ≤ queue'.length := by
        rw [hq']
        simp
      have hlen' : input'.length + queue'.dropLast.length < m := by
        rw [List.length_dropLast]
        omega
      have hlock'' : (locksE res (okLift E f) queue'.dropLast (t' + 1) : ℤ) ≤ k := by
        have h1 := locksE_dropLast_le res (okLift E f) queue' (t' + 1)
        have h2 := locksE_succ_le res (okLift E f) queue' t'
        omega
      simp only [hlast, okLift]
      rw [ih input' queue'.dropLast (t' + 1) hlen' hlock'']
      simp only [Option.map_some']
      have hlist : (queue.reverse ++ input).map (fun p => f p.2) =
          f p0.2 :: ((queue'.dropLast.reverse ++ input').map (fun p => f p.2)) := by
        rw [hdrop, List.reverse_reverse, ← hpend, hqr]
        simp
      rw [hlist]

/-- Claim C1: for every finite upstream `xs`, every mapping function `f`
that succeeds on every element, and every concurrency `k ≥ 1`, driving
`mapAsync(f, k)` with `runToArray` emits exactly `xs.map f` - the
upstream input order, one output per input - and this holds for *every*
assignment `res` of completion times to the in-flight operations, i.e.
regardless of which operation finishes first. -/
theorem mapAsync_preserves_input_order {E A B : Type} (xs : List A) (f : A → B)
    (k : ℤ) (res : Nat → Nat) (hk : 1 ≤ k) :
    mapAsyncRun k res (okLift E f) xs = some ⟨xs.map f, none, [], []⟩ := by
  have h := mapERun_ok (E := E) k res f hk (xs.length + 1) (enumIdx xs 0) [] 0
    (by rw [enumIdx_length]; simp) (by simp [locksE_nil]; omega)
  rw [mapAsyncRun, h]
  simp [enumIdx_map_val]

/-- Witness for C1: concurrency 2 over `[1, 2, 3]` with `f = (· * 10)`
and later submissions completing earlier (`res i = 5 - i`) still yields
`[10, 20, 30]`. -/
theorem mapAsync_preserves_input_order_witness :
    (1 : ℤ) ≤ 2 ∧
    mapAsyncRun 2 (fun i => 5 - i) (okLift Unit (fun n => n * 10)) [1, 2, 3] =
      some ⟨[10, 20, 30], none, [], []⟩ :=
  ⟨by omega, by
    simpa using
      (mapAsync_preserves_input_order (E := Unit) [1, 2, 3] (fun n => n * 10) 2
        (fun i => 5 - i) (by omega))⟩

/-- Claim C5 (amended): the factory returned by `mapAsync` closes over
`gen`, `semaphore` and `promises`, which are created once, when the
combinator is applied (pullover.ts lines 95-97) - so its traversals are
*not* independent: they share the upstream generator and the in-flight
queue.  A completed first traversal (concurrency `k ≥ 1`, `f` total)
consumes both, and a second traversal of the same stream value - run
from the shared leftover state at any later await point, under any
completion schedule - emits no values at all, instead of repeating
`xs.map f`. -/
theorem mapAsync_second_traversal_empty {E A B : Type} (xs : List A) (f : A → B)
    (k : ℤ) (res res2 : Nat → Nat) (fuel2 t2 : Nat) (hk : 1 ≤ k)
    (hf : 1 ≤ fuel2) :
    mapAsyncRun k res (okLift E f) xs = some ⟨xs.map f, none, [], []⟩ ∧
    mapERun k res2 (okLift E f) fuel2 [] [] t2 = some ⟨[], none, [], []⟩ := by
  constructor
  · have h := mapERun_ok (E := E) k res f hk (xs.length + 1) (enumIdx xs 0) [] 0
      (by rw [enumIdx_length]; simp) (by simp [locksE_nil]; omega)
    rw [mapAsyncRun, h]
    simp [enumIdx_map_val]
  · have h := mapERun_ok (E := E) k res2 f hk fuel2 [] [] t2
      (by simpa using hf) (by simp [locksE_nil]; omega)
    simpa using h

/-- Witness for C5 (amended) at concurrency 2 over `[4, 5]`. -/
theorem mapAsync_second_traversal_empty_witness :
    (1 : ℤ) ≤ 2 ∧ 1 ≤ 3 ∧
    (mapAsyncRun 2 (fun i => i) (okLift Unit (fun n => n + 1)) [4, 5] =
        some ⟨[5, 6], none, [], []⟩ ∧
      mapERun 2 (fun i => i + 7) (okLift Unit (fun n => n + 1)) 3 [] [] 11 =
        some ⟨[], none, [], []⟩) :=
  ⟨by omega, by omega, by
    simpa using
      (mapAsync_second_traversal_empty (E := Unit) [4, 5] (fun n => n + 1) 2
        (fun i => i) (fun i => i + 7) 3 11 (by omega) (by omega))⟩

/-- Claim C5 counterexample: for the `mapAsync` stream over `[1]` with
concurrency 1, the first traversal yields `[1]` and leaves the shared
generator and queue exhausted; a second traversal of the same stream
value then yields `[]`, not the `[1]` that independent traversals would
give. -/
theorem mapAsync_second_traversal_differs :
    mapAsyncRun 1 (fun _ => 0) (okLift Unit (fun n : Nat => n)) [1] =
      some ⟨[1], none, [], []⟩ ∧
    mapERun 1 (fun _ => 0) (okLift Unit (fun n : Nat => n)) 2 [] [] 1 =
      some ⟨[], none, [], []⟩ ∧
    ([] : List Nat) ≠ [1] := by
  refine ⟨by decide, by decide, by decide⟩

lemma refillE_neg {E A B : Type} (k : ℤ) (res : Nat → Nat) (f : A → Except E B)
    (input : List (Nat × A)) (t : Nat) (hk : k < 0) :
    refillE k res f input [] t = none := by
  cases input with
  | nil =>
    rw [refillE, if_neg (by simp [locksE_nil]; omega),
      if_neg (by simp [locksE_nil]; omega)]
  | cons p rest =>
    rw [refillE, if_neg (by simp [locksE_nil]; omega),
      if_neg (by simp [locksE_nil]; omega)]

/-- Claim C7 (amended): `mapAsync` neither rejects a non-positive
concurrency nor treats it as 1.  With concurrency 0, `available()` is 0,
the refill loop never runs, and the very first `pop` finds the queue
empty: the stream completes immediately as an *empty* stream - no error,
no values, upstream untouched.  With negative concurrency, `available()`
is negative (truthy), the loop calls `acquire` with `locks.size < max`
false, and that acquire can never be resolved: the first `next` call
never settles. -/
theorem mapAsync_nonpositive_concurrency {E A B : Type} (xs : List A)
    (f : A → Except E B) (res : Nat → Nat) (k : ℤ) :
    mapAsyncRun 0 res f xs = some ⟨[], none, enumIdx xs 0, []⟩ ∧
    (k < 0 → mapAsyncRun k res f xs = none) := by
  constructor
  · cases xs with
    | nil => simp [mapAsyncRun, mapERun, refillE, locksE_nil, enumIdx]
    | cons a rest => simp [mapAsyncRun, mapERun, refillE, locksE_nil, enumIdx]
  · intro hneg
    rw [mapAsyncRun]
    simp only [mapERun, refillE_neg k res f (enumIdx xs 0) 0 hneg]

/-- Witness for C7 (amended): concurrency 0 over `[3]` completes as an
empty stream; concurrency `-1` never completes. -/
theorem mapAsync_nonpositive_concurrency_witness :
    mapAsyncRun 0 (fun _ => 0) (okLift Unit (fun n : Nat => n)) [3] =
      some ⟨[], none, enumIdx [3] 0, []⟩ ∧
    (-1 : ℤ) < 0 ∧
    mapAsyncRun (-1) (fun _ => 0) (okLift Unit (fun n : Nat => n)) [3] = none :=
  ⟨(mapAsync_nonpositive_concurrency [3] (okLift Unit (fun n : Nat => n))
      (fun _ => 0) (-1)).1,
    by omega,
    (mapAsync_nonpositive_concurrency [3] (okLift Unit (fun n : Nat => n))
      (fun _ => 0) (-1)).2 (by omega)⟩

/-- Claim C7 counterexample: over upstream `[1, 2]`, concurrency 0 gives
an empty successful stream - it neither rejects (the failure component is
`none`) nor behaves as concurrency 1, which yields `[1, 2]`.  The code
exhibits a third behavior. -/
theorem mapAsync_zero_concurrency_third_behavior :
    mapAsyncRun 0 (fun _ => 0) (okLift String (fun n : Nat => n)) [1, 2] =
      some ⟨[], none, [(0, 1), (1, 2)], []⟩ ∧
    mapAsyncRun 1 (fun _ => 0) (okLift String (fun n : Nat => n)) [1, 2] =
      some ⟨[1, 2], none, [], []⟩ ∧
    (⟨[], none, [(0, 1), (1, 2)], []⟩ : MapTrav String Nat Nat) ≠
      ⟨[1, 2], none, [], []⟩ := by
  refine ⟨by decide, by decide, by decide⟩

/-- The mapping function of the C2 failing input: the promise for `10`
fulfils (with `100`), the promise for `20` rejects with `"boom"`. -/
def fRejects20 : Nat → Except String Nat :=
  fun n => if n = 10 then .ok (n * 10) else .error "boom"

/-- Claim C2, evaluated at the failing input `mapAsync(f, 2)` over
`[10, 20]` with `f 20` rejecting: the failure does surface exactly at the
rejected entry's ordered position (after the output `100` of the earlier
entry, with the queue drained in submission order) - but the permit
acquired for `20` is *never* released: the completion callback
`promise.then(() => release())` is a fulfilment handler only, so for the
rejected promise `releaseFires` is `false` and the entry's permit counts
as held at every await point, contradicting the claim that the permit is
still released when `f` rejects. -/
theorem mapAsync_rejection_leaks_permit :
    mapAsyncRun 2 (fun _ => 0) fRejects20 [10, 20] =
      some ⟨[100], some "boom", [], []⟩ ∧
    releaseFires (fRejects20 20) = false ∧
    (∀ t : Nat, unreleasedE (fun _ => 0) fRejects20 t (1, 20) = true) := by
  refine ⟨by decide, by decide, fun t => ?_⟩
  simp [unreleasedE, releaseFires, fRejects20, Except.isOk, Except.toBool]

end Pullover
